import Mathlib

/-!
Verification of the BeCreativIA concept-graph backend (`src/backend/main.py`).

Strings are modelled as `List Char`.  Python's Unicode-aware character
classes (`\w`, `\s`, `str.lower`, `str.upper`, `str.capitalize`) are
modelled on the alphabet the program actually manipulates: ASCII plus the
Spanish accented letters á é í ó ú ü ñ (both cases); every other character
is left fixed by the case maps and is classified as neither word nor space.
-/

namespace ConceptGraph

/-- The case pairs of the modelled alphabet: ASCII letters and the Spanish
accented letters, upper case paired with lower case. -/
def casePairs : List (Char × Char) :=
  [('A','a'), ('B','b'), ('C','c'), ('D','d'), ('E','e'), ('F','f'), ('G','g'),
   ('H','h'), ('I','i'), ('J','j'), ('K','k'), ('L','l'), ('M','m'), ('N','n'),
   ('O','o'), ('P','p'), ('Q','q'), ('R','r'), ('S','s'), ('T','t'), ('U','u'),
   ('V','v'), ('W','w'), ('X','x'), ('Y','y'), ('Z','z'),
   ('Á','á'), ('É','é'), ('Í','í'), ('Ó','ó'), ('Ú','ú'), ('Ü','ü'), ('Ñ','ñ')]

/-- Python `str.lower` restricted to the modelled alphabet: map an upper-case
letter to its lower-case partner, leave everything else unchanged. -/
def pyToLower (c : Char) : Char :=
  ((casePairs.find? (fun q => q.1 = c)).map (fun q => q.2)).getD c

/-- Python `str.upper` (used for the first character of `str.capitalize`)
restricted to the modelled alphabet. -/
def pyToUpper (c : Char) : Char :=
  ((casePairs.find? (fun q => q.2 = c)).map (fun q => q.1)).getD c

/-- Python `\s` (whitespace) on the modelled alphabet. -/
def pyIsSpace (c : Char) : Bool :=
  c = ' ' || c = '\t' || c = '\n' || c = '\x0d' || c = '\x0b' || c = '\x0c'

/-- ASCII digit, Python `\d` on the modelled alphabet. -/
def pyIsDigit (c : Char) : Bool :=
  '0' ≤ c && c ≤ '9'

/-- ASCII letter. -/
def pyIsAsciiAlpha (c : Char) : Bool :=
  ('a' ≤ c && c ≤ 'z') || ('A' ≤ c && c ≤ 'Z')

/-- Python `\w` (word character) on the modelled alphabet: letters, digits,
underscore, and the Spanish accented letters in both cases. -/
def pyIsWord (c : Char) : Bool :=
  pyIsAsciiAlpha c || pyIsDigit c || c = '_' ||
  c = 'á' || c = 'é' || c = 'í' || c = 'ó' || c = 'ú' || c = 'ü' || c = 'ñ' ||
  c = 'Á' || c = 'É' || c = 'Í' || c = 'Ó' || c = 'Ú' || c = 'Ü' || c = 'Ñ'

/-- The character class of the leading-marker regex `^[\d\-\*\•\.\)]+\s*`
in `clean_concept`. -/
def isMarker (c : Char) : Bool :=
  pyIsDigit c || c = '-' || c = '*' || c = '•' || c = '.' || c = ')'

/-- `re.sub(r'^[\d\-\*\•\.\)]+\s*', '', s)`: when the first character is in
the marker class, drop the maximal leading marker run and then the maximal
following whitespace run; otherwise the regex does not match and the string
is unchanged. -/
def stripLeadMarkers (s : List Char) : List Char :=
  match s with
  | [] => []
  | c :: _ => if isMarker c then (s.dropWhile isMarker).dropWhile pyIsSpace else s

/-- `re.sub(r'\s+', ' ', s)`: every maximal whitespace run becomes a single
space. -/
def collapseWs : List Char → List Char
  | [] => []
  | [c] => if pyIsSpace c then [' '] else [c]
  | c :: d :: cs =>
      if pyIsSpace c then
        if pyIsSpace d then collapseWs (d :: cs) else ' ' :: collapseWs (d :: cs)
      else c :: collapseWs (d :: cs)

/-- Python `str.strip()`: remove leading and trailing whitespace. -/
def pyStrip (s : List Char) : List Char :=
  (s.dropWhile pyIsSpace).rdropWhile pyIsSpace

/-- Python `str.capitalize()`: uppercase the first character and lowercase
every remaining character. -/
def pyCapitalize : List Char → List Char
  | [] => []
  | c :: cs => pyToUpper c :: cs.map pyToLower

/-- The keep-set of `re.sub(r'[^\w\sáéíóúüñ]', '', s)`. -/
def keepChar (c : Char) : Bool :=
  pyIsWord c || pyIsSpace c ||
  c = 'á' || c = 'é' || c = 'í' || c = 'ó' || c = 'ú' || c = 'ü' || c = 'ñ'

/-- `clean_concept` from `src/backend/main.py` (the Text Normalizer):
empty guard, leading-marker strip, whitespace collapse + strip,
`str.capitalize()`, removal of non-kept characters, final strip. -/
def clean_concept (s : List Char) : List Char :=
  if s = [] then []
  else pyStrip ((pyCapitalize (pyStrip (collapseWs (stripLeadMarkers s)))).filter keepChar)

/-! ## Similarity Scorer (`calculate_similarity` in `src/backend/main.py`) -/

/-- One row of the Wagner–Fischer matrix of `calculate_similarity`:
`nextEntry a b i prev` is row `i+1`, computed from row `i` (`prev`);
column `j+1` compares `a[i]` with `b[j]` and otherwise takes
`min (up+1) (min (left+1) (diag+1))`, exactly as the Python inner loop. -/
def nextEntry (a b : List Char) (i : Nat) (prev : Nat → Nat) : Nat → Nat
  | 0 => i + 1
  | j + 1 =>
      if a.getD i ' ' = b.getD j ' ' then prev j
      else min (prev (j + 1) + 1) (min (nextEntry a b i prev j + 1) (prev j + 1))

/-- The full matrix of `calculate_similarity`: `levMatrix a b i j` is the
entry `matrix[i][j]`, built row by row; row `0` is `0,1,2,…`. -/
def levMatrix (a b : List Char) : Nat → Nat → Nat
  | 0 => fun j => j
  | i + 1 => nextEntry a b i (levMatrix a b i)

/-- The classic Levenshtein distance with unit-cost insert, delete and
substitute, in its textbook (Wagner–Fischer) recursive form on the final
characters of the two strings. -/
def levDist (xs ys : List Char) : Nat :=
  if hx : xs = [] then ys.length
  else if hy : ys = [] then xs.length
  else if xs.getLast hx = ys.getLast hy then levDist xs.dropLast ys.dropLast
  else 1 + min (levDist xs.dropLast ys)
          (min (levDist xs ys.dropLast) (levDist xs.dropLast ys.dropLast))
termination_by xs.length + ys.length
decreasing_by
  all_goals
    have hx1 : 0 < xs.length := List.length_pos.mpr hx
    have hy1 : 0 < ys.length := List.length_pos.mpr hy
    simp [List.length_dropLast]
    omega

/-- `calculate_similarity` from `src/backend/main.py`.  The two degenerate
branches return the raw length of the other string (as Python does); the
main branch returns `1 - matrix[len1][len2] / max(len1, len2)`.  Python
float arithmetic is modelled by exact rational arithmetic. -/
def calculate_similarity (str1 str2 : List Char) : ℚ :=
  if str1.length = 0 then (str2.length : ℚ)
  else if str2.length = 0 then (str1.length : ℚ)
  else 1 - (levMatrix str1 str2 str1.length str2.length : ℚ) /
        ((Nat.max str1.length str2.length : Nat) : ℚ)

/-! ### Properties of the Levenshtein recursion and of the matrix -/

theorem levDist_nil_left (ys : List Char) : levDist [] ys = ys.length := by
  rw [levDist]
  simp

theorem levDist_nil_right (xs : List Char) : levDist xs [] = xs.length := by
  rw [levDist]
  by_cases h : xs = [] <;> simp [h]

theorem levDist_concat (xs ys : List Char) (x y : Char) :
    levDist (xs ++ [x]) (ys ++ [y]) =
      if x = y then levDist xs ys
      else 1 + min (levDist xs (ys ++ [y]))
              (min (levDist (xs ++ [x]) ys) (levDist xs ys)) := by
  rw [levDist]
  have hx : xs ++ [x] ≠ [] := by simp
  have hy : ys ++ [y] ≠ [] := by simp
  simp [hx, hy]

/-- The Wagner–Fischer matrix of the code computes the classic Levenshtein
distance of the corresponding prefixes. -/
theorem levMatrix_eq (a b : List Char) :
    ∀ i, i ≤ a.length → ∀ j, j ≤ b.length →
      levMatrix a b i j = levDist (a.take i) (b.take j) := by
  intro i
  induction i with
  | zero =>
      intro _ j hj
      simp [levMatrix, levDist_nil_left, List.length_take, Nat.min_eq_left hj]
  | succ i ih =>
      intro hi j
      induction j with
      | zero =>
          intro _
          show nextEntry a b i (levMatrix a b i) 0 = _
          simp [nextEntry, levDist_nil_right, List.length_take, Nat.min_eq_left hi]
      | succ j ihj =>
          intro hj
          have hi1 : i < a.length := hi
          have hj1 : j < b.length := hj
          have hta : a.take (i + 1) = a.take i ++ [a[i]] := by
            rw [List.take_succ, List.getElem?_eq_getElem hi1]
            rfl
          have htb : b.take (j + 1) = b.take j ++ [b[j]] := by
            rw [List.take_succ, List.getElem?_eq_getElem hj1]
            rfl
          have key := levDist_concat (a.take i) (b.take j) a[i] b[j]
          rw [← hta, ← htb] at key
          have hrow : nextEntry a b i (levMatrix a b i) j
              = levDist (a.take (i + 1)) (b.take j) := by
            have h2 := ihj (Nat.le_of_lt hj1)
            simpa [levMatrix] using h2
          show nextEntry a b i (levMatrix a b i) (j + 1) = _
          rw [key]
          simp only [nextEntry, List.getD_eq_getElem a ' ' hi1, List.getD_eq_getElem b ' ' hj1]
          split_ifs with h
          · exact ih (Nat.le_of_lt hi1) j (Nat.le_of_lt hj1)
          · rw [hrow, ih (Nat.le_of_lt hi1) j (Nat.le_of_lt hj1),
              ih (Nat.le_of_lt hi1) (j + 1) hj]
            omega

/-- The bottom-right matrix entry is the Levenshtein distance of the two
full strings. -/
theorem levMatrix_full (a b : List Char) :
    levMatrix a b a.length b.length = levDist a b := by
  have := levMatrix_eq a b a.length le_rfl b.length le_rfl
  simpa using this

theorem levDist_self (a : List Char) : levDist a a = 0 := by
  induction a using List.reverseRecOn with
  | nil => simp [levDist_nil_left]
  | append_singleton xs x ih => rw [levDist_concat]; simp [ih]

theorem levDist_le_max (a b : List Char) : levDist a b ≤ max a.length b.length := by
  induction a, b using levDist.induct with
  | case1 ys => simp [levDist_nil_left]
  | case2 xs hx => simp [levDist_nil_right]
  | case3 xs ys hx hy heq ih =>
      rw [levDist, dif_neg hx, dif_neg hy, if_pos heq]
      have la : xs.dropLast.length = xs.length - 1 := by simp
      have lb : ys.dropLast.length = ys.length - 1 := by simp
      have hx1 : 0 < xs.length := List.length_pos.mpr hx
      have hy1 : 0 < ys.length := List.length_pos.mpr hy
      omega
  | case4 xs ys hx hy hne ih1 ih2 ih3 =>
      rw [levDist, dif_neg hx, dif_neg hy, if_neg hne]
      have la : xs.dropLast.length = xs.length - 1 := by simp
      have lb : ys.dropLast.length = ys.length - 1 := by simp
      have hx1 : 0 < xs.length := List.length_pos.mpr hx
      have hy1 : 0 < ys.length := List.length_pos.mpr hy
      omega

theorem levDist_concat_nil (xs : List Char) (x : Char) :
    levDist (xs ++ [x]) [] = xs.length + 1 := by
  rw [levDist_nil_right]
  simp

theorem levDist_nil_concat (ys : List Char) (y : Char) :
    levDist [] (ys ++ [y]) = ys.length + 1 := by
  rw [levDist_nil_left]
  simp

theorem levDist_lipschitz (n : Nat) : ∀ xs ys : List Char, xs.length + ys.length ≤ n →
    (∀ x, levDist (xs ++ [x]) ys ≤ 1 + levDist xs ys ∧
      levDist xs ys ≤ 1 + levDist (xs ++ [x]) ys) ∧
    (∀ y, levDist xs (ys ++ [y]) ≤ 1 + levDist xs ys ∧
      levDist xs ys ≤ 1 + levDist xs (ys ++ [y])) := by
  induction n with
  | zero =>
      intro xs ys hlen
      have hx : xs = [] := by
        cases xs with
        | nil => rfl
        | cons a t => simp at hlen
      have hy : ys = [] := by
        cases ys with
        | nil => rfl
        | cons a t => simp at hlen
      subst hx; subst hy
      constructor
      · intro x
        have h1 : levDist ([] ++ [x]) [] = 1 := levDist_concat_nil [] x
        have h2 : levDist ([] : List Char) [] = 0 := levDist_nil_left []
        rw [h1, h2]
        omega
      · intro y
        have h1 : levDist [] ([] ++ [y]) = 1 := levDist_nil_concat [] y
        have h2 : levDist ([] : List Char) [] = 0 := levDist_nil_left []
        rw [h1, h2]
        omega
  | succ n ih =>
      intro xs ys hlen
      constructor
      · intro x
        rcases ys.eq_nil_or_concat with rfl | ⟨ys', y', rfl⟩
        · rw [levDist_concat_nil, levDist_nil_right]
          omega
        · rw [List.concat_eq_append] at hlen ⊢
          have hlen2 : xs.length + ys'.length ≤ n := by
            simp at hlen; omega
          constructor
          · rw [levDist_concat]
            split_ifs with hxy
            · subst hxy
              exact ((ih xs ys' hlen2).2 x).2
            · omega
          · rw [levDist_concat]
            split_ifs with hxy
            · subst hxy
              exact ((ih xs ys' hlen2).2 x).1
            · have hA := ((ih xs ys' hlen2).2 y').1
              have hB := ((ih xs ys' hlen2).1 x).2
              omega
      · intro y
        rcases xs.eq_nil_or_concat with rfl | ⟨xs', x', rfl⟩
        · rw [levDist_nil_concat, levDist_nil_left]
          omega
        · rw [List.concat_eq_append] at hlen ⊢
          have hlen2 : xs'.length + ys.length ≤ n := by
            simp at hlen; omega
          constructor
          · rw [levDist_concat]
            split_ifs with hxy
            · subst hxy
              exact ((ih xs' ys hlen2).1 x').2
            · omega
          · rw [levDist_concat]
            split_ifs with hxy
            · subst hxy
              exact ((ih xs' ys hlen2).1 x').1
            · have hA := ((ih xs' ys hlen2).1 x').1
              have hB := ((ih xs' ys hlen2).2 y).2
              omega

/-- `levDist` satisfies the full unit-cost Wagner–Fischer recurrence with
explicit insert, delete and substitute branches (substitution is free on
equal characters), which together with the base cases characterizes the
classic Levenshtein distance. -/
theorem levDist_concat_min (xs ys : List Char) (x y : Char) :
    levDist (xs ++ [x]) (ys ++ [y])
      = min (1 + levDist xs (ys ++ [y]))
          (min (1 + levDist (xs ++ [x]) ys)
            ((if x = y then 0 else 1) + levDist xs ys)) := by
  rw [levDist_concat]
  split_ifs with h
  · have hA := ((levDist_lipschitz (xs.length + ys.length) xs ys le_rfl).2 y).2
    have hB := ((levDist_lipschitz (xs.length + ys.length) xs ys le_rfl).1 x).2
    omega
  · omega

theorem similarity_main (a b : List Char) (ha : a ≠ []) (hb : b ≠ []) :
    calculate_similarity a b
        = 1 - (levDist a b : ℚ) / ((Nat.max a.length b.length : Nat) : ℚ) ∧
      0 ≤ calculate_similarity a b ∧ calculate_similarity a b ≤ 1 := by
  have ha0 : a.length ≠ 0 := by simpa using ha
  have hb0 : b.length ≠ 0 := by simpa using hb
  have hform : calculate_similarity a b
      = 1 - (levDist a b : ℚ) / ((Nat.max a.length b.length : Nat) : ℚ) := by
    rw [calculate_similarity, if_neg ha0, if_neg hb0, levMatrix_full]
  refine ⟨hform, ?_, ?_⟩
  · rw [hform]
    have hm : (0 : ℚ) < ((Nat.max a.length b.length : Nat) : ℚ) := by
      have h0 : 0 < Nat.max a.length b.length :=
        Nat.lt_of_lt_of_le (Nat.pos_of_ne_zero ha0) (Nat.le_max_left _ _)
      exact_mod_cast h0
    have hd : (levDist a b : ℚ) ≤ ((Nat.max a.length b.length : Nat) : ℚ) := by
      exact_mod_cast (levDist_le_max a b)
    have := (div_le_one hm).mpr hd
    linarith
  · rw [hform]
    have hm : (0 : ℚ) < ((Nat.max a.length b.length : Nat) : ℚ) := by
      have h0 : 0 < Nat.max a.length b.length :=
        Nat.lt_of_lt_of_le (Nat.pos_of_ne_zero ha0) (Nat.le_max_left _ _)
      exact_mod_cast h0
    have hd : (0 : ℚ) ≤ (levDist a b : ℚ) / ((Nat.max a.length b.length : Nat) : ℚ) := by
      positivity
    linarith

/-- **C1.** For non-empty strings `a` and `b`, `calculate_similarity a b`
equals `1 - levenshtein(a, b) / max(len a, len b)` where the distance is the
classic unit-cost Levenshtein distance (pinned down by its base cases and
the insert/delete/substitute recurrence, last conjuncts); the result lies in
`[0, 1]`; `similarity(a, a) = 1`; and `similarity("cat", "bat") = 1 - 1/3`. -/
theorem C1_similarity_formula :
    (∀ a b : List Char, a ≠ [] → b ≠ [] →
        calculate_similarity a b
            = 1 - (levDist a b : ℚ) / ((Nat.max a.length b.length : Nat) : ℚ) ∧
          0 ≤ calculate_similarity a b ∧ calculate_similarity a b ≤ 1) ∧
    (∀ a : List Char, a ≠ [] →
        calculate_similarity a a = 1) ∧
    calculate_similarity "cat".toList "bat".toList = 1 - 1 / 3 ∧
    (∀ ys : List Char, levDist [] ys = ys.length) ∧
    (∀ xs : List Char, levDist xs [] = xs.length) ∧
    (∀ (xs ys : List Char) (x y : Char),
        levDist (xs ++ [x]) (ys ++ [y])
          = min (1 + levDist xs (ys ++ [y]))
              (min (1 + levDist (xs ++ [x]) ys)
                ((if x = y then 0 else 1) + levDist xs ys))) := by
  refine ⟨similarity_main, ?_, ?_, levDist_nil_left, levDist_nil_right,
    levDist_concat_min⟩
  · intro a ha
    have h := (similarity_main a a ha ha).1
    rw [h, levDist_self]
    simp
  · have hd : levDist "cat".toList "bat".toList = 1 := by
      rw [← levMatrix_full]
      decide
    have h := (similarity_main "cat".toList "bat".toList (by decide) (by decide)).1
    rw [h, hd]
    norm_num

/-- Witness for C1: instantiating the universally quantified parts at
concrete non-empty strings. -/
theorem C1_similarity_formula_witness :
    calculate_similarity "gato".toList "gato".toList = 1 :=
  C1_similarity_formula.2.1 "gato".toList (by decide)

/-- **C2** is false of the code: with an empty argument
`calculate_similarity` returns the raw length of the other string instead
of the documented `[0,1]` ratio.  `similarity("", "") = 0` (claim: `1.0`)
and `similarity("", "x") = 1` (claim: `0.0`). -/
theorem C2_empty_string_fallback :
    calculate_similarity [] [] = 0 ∧
    calculate_similarity [] "x".toList = 1 ∧
    calculate_similarity "x".toList [] = 1 := by
  decide

/-! ## Concept Matcher (`find_existing_concepts` in `src/backend/main.py`) -/

/-- Python's substring operator `needle in hay` on lists of characters. -/
def isSubOf (n : List Char) : List Char → Bool
  | [] => n.isEmpty
  | c :: t => n.isPrefixOf (c :: t) || isSubOf n t

/-- `find_existing_concepts` from `src/backend/main.py`: lowercase both
strings; keep an existing label when the pre-filter holds (either lowered
string contains the other, or the lengths differ by at most 2) and the
similarity of the lowered strings exceeds `0.6`. -/
def find_existing_concepts (new_concept : List Char)
    (existing_concepts : List (List Char)) : List (List Char) :=
  let new_lower := new_concept.map pyToLower
  existing_concepts.filter fun existing =>
    let existing_lower := existing.map pyToLower
    (isSubOf new_lower existing_lower || isSubOf existing_lower new_lower ||
      ((new_lower.length : Int) - (existing_lower.length : Int)).natAbs ≤ 2) &&
    calculate_similarity new_lower existing_lower > (3 / 5 : ℚ)

/-! ## Graph Store (`concept_graph`, `add_concept`, `reset_graph`,
`get_graph`, `get_all_concepts` in `src/backend/main.py`)

The Python node mapping is a dict keyed by the integer node id, populated in
insertion order with dense ids `0, 1, …`; its `items()`/`values()` iteration
order is insertion order, so it is modelled as a list of nodes carrying
their ids.  The global set `all_generated_concepts` is modelled as a
duplicate-free list. -/

structure Node where
  id : Nat
  label : List Char
  x : Int
  y : Int
  z : Int
deriving DecidableEq, Repr

structure Edge where
  source : Nat
  target : Nat
deriving DecidableEq, Repr

structure GraphState where
  nodes : List Node
  edges : List Edge
  allConcepts : List (List Char)
deriving DecidableEq, Repr

/-- The initial module-level state: empty graph, empty global concept set. -/
def emptyState : GraphState := ⟨[], [], []⟩

/-- `if parent: parent = clean_concept(parent)` — a `None` or empty (falsy)
parent is left untouched, otherwise it is normalized. -/
def cleanParent : Option (List Char) → Option (List Char)
  | none => none
  | some p => if p = [] then some p else some (clean_concept p)

/-- Membership test `edge["source"] == s and edge["target"] == t` over the
edge list. -/
def edgeExistsDirected (edges : List Edge) (s t : Nat) : Bool :=
  edges.any fun e => e.source = s && e.target = t

/-- The similarity-edge guard: an edge between the two nodes in either
direction. -/
def edgeExistsEither (edges : List Edge) (a b : Nat) : Bool :=
  edges.any fun e => (e.source = a && e.target = b) || (e.source = b && e.target = a)

/-- The node insert-or-reuse step of `add_concept`: scan the nodes for the
first one labelled `concept`; reuse its id, or append a fresh node with
id = current node count and zero coordinates. -/
def nodeStep (nodes : List Node) (concept : List Char) : List Node × Nat :=
  match nodes.find? (fun n => n.label = concept) with
  | some n => (nodes, n.id)
  | none => (nodes ++ [{ id := nodes.length, label := concept, x := 0, y := 0, z := 0 }],
      nodes.length)

/-- The parent-edge step of `add_concept`: only for a truthy (non-`None`,
non-empty) parent, look up the first node labelled with it and append the
directed edge parent → concept unless that exact directed edge exists;
a missing parent node is silently skipped. -/
def parentStep (nodes : List Node) (edges : List Edge) (node_id : Nat) :
    Option (List Char) → List Edge
  | none => edges
  | some p =>
      if p = [] then edges
      else
        match nodes.find? (fun n => n.label = p) with
        | some pn =>
            if edgeExistsDirected edges pn.id node_id then edges
            else edges ++ [{ source := pn.id, target := node_id }]
        | none => edges

/-- One iteration of the similarity loop of `add_concept`: skip the concept
itself and the parent, resolve the similar label to a node id, and append
the edge concept → similar unless an edge in either direction exists. -/
def similarStep (nodes : List Node) (node_id : Nat) (concept : List Char)
    (parent : Option (List Char)) (edges : List Edge) (s : List Char) : List Edge :=
  if s ≠ concept ∧ some s ≠ parent then
    match nodes.find? (fun n => n.label = s) with
    | some sn =>
        if edgeExistsEither edges node_id sn.id then edges
        else edges ++ [{ source := node_id, target := sn.id }]
    | none => edges
  else edges

/-- `add_concept` from `src/backend/main.py`: normalize concept and parent,
record the concept in the global concept set, insert-or-reuse the node,
append the parent edge, then append similarity edges for every label that
`find_existing_concepts` returns over the post-insertion labels.  Returns
the new state, the concept's node id, and `len(similar_concepts)`. -/
def add_concept (st : GraphState) (rawConcept : List Char)
    (rawParent : Option (List Char)) : GraphState × Nat × Nat :=
  let concept := clean_concept rawConcept
  let parent := cleanParent rawParent
  let allC := if concept ∈ st.allConcepts then st.allConcepts
    else st.allConcepts ++ [concept]
  let ns := nodeStep st.nodes concept
  let edges1 := parentStep ns.1 st.edges ns.2 parent
  let similars := find_existing_concepts concept (ns.1.map (·.label))
  let edges2 := similars.foldl (similarStep ns.1 ns.2 concept parent) edges1
  (⟨ns.1, edges2, allC⟩, ns.2, similars.length)

/-- `reset_graph` from `src/backend/main.py`: clear nodes and edges, keep
`all_generated_concepts`. -/
def reset_graph (st : GraphState) : GraphState :=
  ⟨[], [], st.allConcepts⟩

/-- `get_graph` (the `snapshot` read operation). -/
def snapshot (st : GraphState) : List Node × List Edge :=
  (st.nodes, st.edges)

/-- `get_all_concepts`. -/
def get_all_concepts (st : GraphState) : List (List Char) :=
  st.allConcepts

/-- The two mutating operations of the Graph Store. -/
inductive Op
  | ingest (rawConcept : List Char) (rawParent : Option (List Char))
  | reset

/-- Apply one operation to the state. -/
def applyOp (st : GraphState) : Op → GraphState
  | .ingest c p => (add_concept st c p).1
  | .reset => reset_graph st

/-- Run a sequence of operations from a starting state. -/
def runOps (st : GraphState) (ops : List Op) : GraphState :=
  ops.foldl applyOp st

theorem nodeStep_idem (nodes : List Node) (c : List Char) :
    nodeStep (nodeStep nodes c).1 c = ((nodeStep nodes c).1, (nodeStep nodes c).2) := by
  unfold nodeStep
  cases h : nodes.find? (fun n => n.label = c) with
  | some n => simp [h]
  | none =>
      simp only [h]
      rw [List.find?_append, h]
      simp

/-- **C3.** Ingesting the same raw concept twice with no parent returns the
same node id both times and the second call creates no node. -/
theorem C3_ingest_idempotent (st : GraphState) (c : List Char) :
    (add_concept (add_concept st c none).1 c none).2.1 = (add_concept st c none).2.1 ∧
    (add_concept (add_concept st c none).1 c none).1.nodes.length
      = (add_concept st c none).1.nodes.length := by
  have hid := nodeStep_idem st.nodes (clean_concept c)
  constructor
  · show (nodeStep (nodeStep st.nodes (clean_concept c)).1 (clean_concept c)).2
      = (nodeStep st.nodes (clean_concept c)).2
    rw [hid]
  · show (nodeStep (nodeStep st.nodes (clean_concept c)).1 (clean_concept c)).1.length
      = (nodeStep st.nodes (clean_concept c)).1.length
    rw [hid]

/-- **C9.** `reset` empties nodes and edges and leaves the global concept
set untouched. -/
theorem C9_reset_frame (st : GraphState) :
    snapshot (reset_graph st) = ([], []) ∧
    get_all_concepts (reset_graph st) = get_all_concepts st ∧
    ∀ l ∈ get_all_concepts st, l ∈ get_all_concepts (reset_graph st) :=
  ⟨rfl, rfl, fun _ h => h⟩

theorem label_mem_nodeStep (nodes : List Node) (c : List Char) :
    c ∈ (nodeStep nodes c).1.map (·.label) := by
  unfold nodeStep
  cases h : nodes.find? (fun n => n.label = c) with
  | some n =>
      have hp := List.find?_some h
      have hm := List.mem_of_find?_eq_some h
      simp only [decide_eq_true_eq] at hp
      simp only [List.mem_map]
      exact ⟨n, hm, hp⟩
  | none => simp

theorem self_mem_find_existing (l : List Char) (hl : l ≠ [])
    (ls : List (List Char)) (hmem : l ∈ ls) :
    l ∈ find_existing_concepts l ls := by
  unfold find_existing_concepts
  refine List.mem_filter.mpr ⟨hmem, ?_⟩
  have hnl : l.map pyToLower ≠ [] := by
    simpa using hl
  have hsim : calculate_similarity (l.map pyToLower) (l.map pyToLower) = 1 := by
    have h := (similarity_main (l.map pyToLower) (l.map pyToLower) hnl hnl).1
    rw [h, levDist_self]
    simp
  simp only [Bool.and_eq_true, Bool.or_eq_true, decide_eq_true_eq]
  constructor
  · right
    simp
  · rw [hsim]
    norm_num

/-- **C10.** For every ingest whose normalized concept is non-empty, the
similarity scan runs over the labels after node insertion, its result
contains the concept's own label, and the reported count is at least 1. -/
theorem C10_self_count (st : GraphState) (c : List Char) (p : Option (List Char))
    (h : clean_concept c ≠ []) :
    clean_concept c ∈ (add_concept st c p).1.nodes.map (·.label) ∧
    clean_concept c ∈ find_existing_concepts (clean_concept c)
        ((add_concept st c p).1.nodes.map (·.label)) ∧
    1 ≤ (add_concept st c p).2.2 := by
  have hmem : clean_concept c ∈ (nodeStep st.nodes (clean_concept c)).1.map (·.label) :=
    label_mem_nodeStep st.nodes (clean_concept c)
  have hsim : clean_concept c ∈ find_existing_concepts (clean_concept c)
      ((nodeStep st.nodes (clean_concept c)).1.map (·.label)) :=
    self_mem_find_existing (clean_concept c) h _ hmem
  refine ⟨hmem, hsim, ?_⟩
  show 1 ≤ (find_existing_concepts (clean_concept c)
      ((nodeStep st.nodes (clean_concept c)).1.map (·.label))).length
  have hne := List.ne_nil_of_mem hsim
  have := List.length_pos.mpr hne
  omega

/-- Witness for C10 at a concrete call. -/
theorem C10_self_count_witness :
    clean_concept "Gato".toList
        ∈ (add_concept emptyState "Gato".toList none).1.nodes.map (·.label) ∧
    clean_concept "Gato".toList ∈ find_existing_concepts (clean_concept "Gato".toList)
        ((add_concept emptyState "Gato".toList none).1.nodes.map (·.label)) ∧
    1 ≤ (add_concept emptyState "Gato".toList none).2.2 :=
  C10_self_count emptyState "Gato".toList none (by decide)

theorem nodeStep_labels_nodup (nodes : List Node) (c : List Char)
    (h : (nodes.map (·.label)).Nodup) : ((nodeStep nodes c).1.map (·.label)).Nodup := by
  unfold nodeStep
  cases hf : nodes.find? (fun n => n.label = c) with
  | some n => simpa using h
  | none =>
      have hnot : c ∉ nodes.map (·.label) := by
        intro hc
        rcases List.mem_map.mp hc with ⟨n, hn, hl⟩
        have := List.find?_eq_none.mp hf n hn
        simp [hl] at this
      simp [List.nodup_append, h, hnot]

theorem edge_not_mem_of_directed_false (edges : List Edge) (s t : Nat)
    (h : edgeExistsDirected edges s t = false) : Edge.mk s t ∉ edges := by
  intro hmem
  have := List.any_eq_false.mp h _ hmem
  simp at this

theorem edge_not_mem_of_either_false (edges : List Edge) (a b : Nat)
    (h : edgeExistsEither edges a b = false) : Edge.mk a b ∉ edges := by
  intro hmem
  have := List.any_eq_false.mp h _ hmem
  simp at this

theorem parentStep_nodup (nodes : List Node) (edges : List Edge) (nid : Nat)
    (par : Option (List Char)) (h : edges.Nodup) :
    (parentStep nodes edges nid par).Nodup := by
  cases par with
  | none => exact h
  | some p =>
      simp only [parentStep]
      split_ifs with hp
      · exact h
      cases hf : nodes.find? (fun n => n.label = p) with
      | some pn =>
          cases hd : edgeExistsDirected edges pn.id nid with
          | true => simpa [hd] using h
          | false =>
              have hnm := edge_not_mem_of_directed_false edges pn.id nid hd
              simp [hd, List.nodup_append, h, hnm]
      | none => exact h

theorem similarStep_nodup (nodes : List Node) (nid : Nat) (c : List Char)
    (par : Option (List Char)) (edges : List Edge) (s : List Char)
    (h : edges.Nodup) : (similarStep nodes nid c par edges s).Nodup := by
  unfold similarStep
  split_ifs with hc
  · cases hf : nodes.find? (fun n => n.label = s) with
    | some sn =>
        cases hd : edgeExistsEither edges nid sn.id with
        | true => simpa [hd] using h
        | false =>
            have hnm := edge_not_mem_of_either_false edges nid sn.id hd
            simp [hd, List.nodup_append, h, hnm]
    | none => exact h
  · exact h

theorem foldl_similarStep_nodup (nodes : List Node) (nid : Nat) (c : List Char)
    (par : Option (List Char)) (ls : List (List Char)) :
    ∀ edges : List Edge, edges.Nodup →
      (ls.foldl (similarStep nodes nid c par) edges).Nodup := by
  induction ls with
  | nil => intro edges h; exact h
  | cons s rest ih =>
      intro edges h
      exact ih _ (similarStep_nodup nodes nid c par edges s h)

/-- The state invariant of the Graph Store: pairwise distinct node labels
and pairwise distinct `(source, target)` edge pairs. -/
def InvGraph (st : GraphState) : Prop :=
  (st.nodes.map (·.label)).Nodup ∧ st.edges.Nodup

theorem applyOp_inv (st : GraphState) (op : Op) (h : InvGraph st) :
    InvGraph (applyOp st op) := by
  cases op with
  | reset => exact ⟨List.nodup_nil, List.nodup_nil⟩
  | ingest c p =>
      refine ⟨?_, ?_⟩
      · show (((nodeStep st.nodes (clean_concept c)).1).map (·.label)).Nodup
        exact nodeStep_labels_nodup st.nodes (clean_concept c) h.1
      · show (List.foldl _ (parentStep _ st.edges _ (cleanParent p)) _).Nodup
        exact foldl_similarStep_nodup _ _ _ _ _ _
          (parentStep_nodup _ st.edges _ (cleanParent p) h.2)

theorem runOps_inv (ops : List Op) :
    ∀ st : GraphState, InvGraph st → InvGraph (runOps st ops) := by
  induction ops with
  | nil => intro st h; exact h
  | cons op rest ih =>
      intro st h
      exact ih _ (applyOp_inv st op h)

/-- **C4.** From the empty graph, any sequence of ingest/reset operations
preserves: distinct node labels and distinct directed edge pairs; moreover
the similarity step never appends an edge when one already exists between
the two nodes in either direction. -/
theorem C4_graph_invariants :
    (∀ ops : List Op, InvGraph (runOps emptyState ops)) ∧
    (∀ (nodes : List Node) (node_id : Nat) (concept : List Char)
        (parent : Option (List Char)) (edges : List Edge) (s : List Char) (sn : Node),
        nodes.find? (fun n => n.label = s) = some sn →
        edgeExistsEither edges node_id sn.id = true →
        similarStep nodes node_id concept parent edges s = edges) := by
  constructor
  · intro ops
    exact runOps_inv ops emptyState ⟨List.nodup_nil, List.nodup_nil⟩
  · intro nodes nid c par edges s sn hf he
    unfold similarStep
    split_ifs with hc
    · rw [hf]
      simp [he]
    · rfl

/-- Witness for C4: a concrete operation sequence, and a concrete blocked
similarity step. -/
theorem C4_graph_invariants_witness :
    InvGraph (runOps emptyState [Op.ingest "a".toList none, Op.reset]) ∧
    similarStep [Node.mk 0 "B".toList 0 0 0] 5 "A".toList none [Edge.mk 5 0] "B".toList
      = [Edge.mk 5 0] :=
  ⟨C4_graph_invariants.1 [Op.ingest "a".toList none, Op.reset],
   C4_graph_invariants.2 [Node.mk 0 "B".toList 0 0 0] 5 "A".toList none [Edge.mk 5 0]
     "B".toList (Node.mk 0 "B".toList 0 0 0) (by decide) (by decide)⟩

theorem foldl_fixed {α β : Type} (f : β → α → β) (l : List α)
    (hf : ∀ s ∈ l, ∀ e, f e s = e) : ∀ e : β, l.foldl f e = e := by
  induction l with
  | nil => intro e; rfl
  | cons a t ih =>
      intro e
      rw [List.foldl_cons, hf a (by simp)]
      exact ih (fun s hs e2 => hf s (by simp [hs]) e2) e

theorem mem_of_mem_find_existing (n s : List Char) (ls : List (List Char))
    (h : s ∈ find_existing_concepts n ls) : s ∈ ls := by
  unfold find_existing_concepts at h
  exact List.mem_of_mem_filter h

/-- **C8 counterexample.**  A non-null parent (`"!"`) that normalizes to the
empty string: a node labelled with that normalized parent exists, yet the
call appends no edge at all (the claim requires a parent edge). -/
theorem C8_counterexample :
    clean_concept "!".toList = [] ∧
    Node.mk 0 [] 0 0 0 ∈ (GraphState.mk [Node.mk 0 [] 0 0 0] [] [[]]).nodes ∧
    (add_concept (GraphState.mk [Node.mk 0 [] 0 0 0] [] [[]])
        "X".toList (some "!".toList)).1.edges = [] := by
  refine ⟨by decide, by simp, ?_⟩
  have hc : clean_concept "X".toList = "X".toList := by decide
  have hpar : cleanParent (some "!".toList) = some [] := by decide
  have hns : nodeStep [Node.mk 0 [] 0 0 0] "X".toList
      = ([Node.mk 0 [] 0 0 0, Node.mk 1 "X".toList 0 0 0], 1) := by decide
  show (find_existing_concepts (clean_concept "X".toList)
      ((nodeStep [Node.mk 0 [] 0 0 0] (clean_concept "X".toList)).1.map (·.label))).foldl
      (similarStep (nodeStep [Node.mk 0 [] 0 0 0] (clean_concept "X".toList)).1
        (nodeStep [Node.mk 0 [] 0 0 0] (clean_concept "X".toList)).2
        (clean_concept "X".toList) (cleanParent (some "!".toList)))
      (parentStep (nodeStep [Node.mk 0 [] 0 0 0] (clean_concept "X".toList)).1 []
        (nodeStep [Node.mk 0 [] 0 0 0] (clean_concept "X".toList)).2
        (cleanParent (some "!".toList))) = []
  rw [hc, hpar, hns]
  have hps : parentStep [Node.mk 0 [] 0 0 0, Node.mk 1 "X".toList 0 0 0] [] 1 (some []) = [] := by
    decide
  rw [hps]
  apply foldl_fixed
  intro s hs e
  have hmem := mem_of_mem_find_existing _ s _ hs
  simp only [List.map_cons, List.map_nil, List.mem_cons, List.not_mem_nil, or_false] at hmem
  rcases hmem with h1 | h1
  · subst h1
    simp [similarStep]
  · subst h1
    simp [similarStep]

/-- **C8 (amended).** For an ingest whose parent is non-null, non-empty and
normalizes to a non-empty label: the parent step never touches the nodes and
the call returns the concept's node id; if a node carries the parent label,
the parent step appends the directed parent → concept edge unless that exact
directed edge exists; if none does, the parent step appends nothing. -/
theorem C8_parent_edge_behavior (st : GraphState) (rawC p : List Char)
    (hp : p ≠ []) (hcp : clean_concept p ≠ []) :
    ((add_concept st rawC (some p)).1.nodes
        = (nodeStep st.nodes (clean_concept rawC)).1 ∧
      (add_concept st rawC (some p)).2.1
        = (nodeStep st.nodes (clean_concept rawC)).2) ∧
    (∀ pn, (nodeStep st.nodes (clean_concept rawC)).1.find?
          (fun n => n.label = clean_concept p) = some pn →
        parentStep (nodeStep st.nodes (clean_concept rawC)).1 st.edges
            (nodeStep st.nodes (clean_concept rawC)).2 (cleanParent (some p))
          = if edgeExistsDirected st.edges pn.id
                (nodeStep st.nodes (clean_concept rawC)).2 then st.edges
            else st.edges ++
              [Edge.mk pn.id (nodeStep st.nodes (clean_concept rawC)).2]) ∧
    ((nodeStep st.nodes (clean_concept rawC)).1.find?
          (fun n => n.label = clean_concept p) = none →
        parentStep (nodeStep st.nodes (clean_concept rawC)).1 st.edges
            (nodeStep st.nodes (clean_concept rawC)).2 (cleanParent (some p))
          = st.edges) := by
  have hclean : cleanParent (some p) = some (clean_concept p) := by
    simp [cleanParent, hp]
  refine ⟨⟨rfl, rfl⟩, ?_, ?_⟩
  · intro pn hf
    rw [hclean]
    simp only [parentStep, if_neg hcp, hf]
  · intro hf
    rw [hclean]
    simp only [parentStep, if_neg hcp, hf]

/-- Witness for C8 at a concrete call (parent not yet ingested). -/
theorem C8_parent_edge_behavior_witness :
    (add_concept emptyState "Gato".toList (some "Perro".toList)).1.nodes
        = (nodeStep emptyState.nodes (clean_concept "Gato".toList)).1 ∧
    parentStep (nodeStep emptyState.nodes (clean_concept "Gato".toList)).1
        emptyState.edges (nodeStep emptyState.nodes (clean_concept "Gato".toList)).2
        (cleanParent (some "Perro".toList)) = emptyState.edges := by
  have h := C8_parent_edge_behavior emptyState "Gato".toList "Perro".toList
    (by decide) (by decide)
  exact ⟨h.1.1, h.2.2 (by decide)⟩

/-! ## The normalizer claims -/

/-- **C6 counterexample.**  The capitalization step does lowercase the rest
of the string: `normalize("HELLO World") ≠ "HELLO World"`. -/
theorem C6_counterexample :
    clean_concept "HELLO World".toList ≠ "HELLO World".toList := by
  decide

/-- **C6 (amended).** `str.capitalize()` uppercases the first character and
lowercases every remaining one, so `normalize("HELLO World") = "Hello world"`. -/
theorem C6_capitalize_lowercases_rest :
    clean_concept "HELLO World".toList = "Hello world".toList ∧
    ∀ (c : Char) (cs : List Char),
      pyCapitalize (c :: cs) = pyToUpper c :: cs.map pyToLower :=
  ⟨by decide, fun _ _ => rfl⟩

/-- **C7 counterexample.**  The marker-strip regex is anchored at the start
of the string, so the leading spaces of `"  3) café  "` prevent it from
firing: the result is `"3 café"`, not the claimed `"Café"`. -/
theorem C7_counterexample :
    clean_concept "  3) café  ".toList ≠ "Café".toList := by
  decide

/-- **C7 (amended).** `normalize("") = ""` and `normalize("hello!!") =
"Hello"` hold; `normalize("  3) café  ") = "3 café"` (accents preserved) —
only without the leading whitespace does the marker strip apply, giving
`normalize("3) café") = "Café"`. -/
theorem C7_test_vectors :
    clean_concept "".toList = [] ∧
    clean_concept "hello!!".toList = "Hello".toList ∧
    clean_concept "  3) café  ".toList = "3 café".toList ∧
    clean_concept "3) café".toList = "Café".toList := by
  decide

/-- **C5 counterexample.**  `normalize` is not idempotent:
`normalize("!hola") = "hola"` but `normalize("hola") = "Hola"`. -/
theorem C5_counterexample :
    clean_concept (clean_concept "!hola".toList) ≠ clean_concept "!hola".toList := by
  decide

/-! ## Normalizer idempotence analysis (claim C5) -/

theorem pyToLower_cases (c : Char) :
    pyToLower c ∈ casePairs.map (fun q => q.2) ∨ pyToLower c = c := by
  unfold pyToLower
  cases h : casePairs.find? (fun q => q.1 = c) with
  | some q =>
      left
      have hm := List.mem_of_find?_eq_some h
      show q.2 ∈ _
      exact List.mem_map.mpr ⟨q, hm, rfl⟩
  | none => right; rfl

theorem pyToUpper_cases (c : Char) :
    pyToUpper c ∈ casePairs.map (fun q => q.1) ∨ pyToUpper c = c := by
  unfold pyToUpper
  cases h : casePairs.find? (fun q => q.2 = c) with
  | some q =>
      left
      have hm := List.mem_of_find?_eq_some h
      show q.1 ∈ _
      exact List.mem_map.mpr ⟨q, hm, rfl⟩
  | none => right; rfl

theorem pyToLower_idem (c : Char) : pyToLower (pyToLower c) = pyToLower c := by
  rcases pyToLower_cases c with h | h
  · have hall : ∀ d ∈ casePairs.map (fun q => q.2), pyToLower d = d := by decide
    exact hall _ h
  · simp only [h]

theorem pyToLower_space (c : Char) (h : pyIsSpace (pyToLower c) = true) :
    pyToLower c = c := by
  rcases pyToLower_cases c with h2 | h2
  · have hall : ∀ d ∈ casePairs.map (fun q => q.2), pyIsSpace d = false := by decide
    rw [hall _ h2] at h
    cases h
  · exact h2

theorem pyToUpper_space (c : Char) (h : pyIsSpace (pyToUpper c) = true) :
    pyToUpper c = c := by
  rcases pyToUpper_cases c with h2 | h2
  · have hall : ∀ d ∈ casePairs.map (fun q => q.1), pyIsSpace d = false := by decide
    rw [hall _ h2] at h
    cases h
  · exact h2

theorem keepChar_word_or_space (c : Char) (h : keepChar c = true) :
    pyIsWord c = true ∨ pyIsSpace c = true := by
  by_cases hw : pyIsWord c = true
  · exact Or.inl hw
  · by_cases hs : pyIsSpace c = true
    · exact Or.inr hs
    · exfalso
      have hw2 : pyIsWord c = false := by simpa using hw
      have hs2 : pyIsSpace c = false := by simpa using hs
      simp only [keepChar, hw2, hs2, Bool.false_or, Bool.or_eq_true,
        decide_eq_true_eq] at h
      rcases h with ((((((h | h) | h) | h) | h) | h) | h) <;> subst h <;>
        exact absurd hw2 (by decide)

theorem isMarker_false_of_word (c : Char) (hw : pyIsWord c = true)
    (hd : pyIsDigit c = false) : isMarker c = false := by
  by_contra h
  have h2 : isMarker c = true := by simpa using h
  simp only [isMarker, hd, Bool.false_or, Bool.or_eq_true, decide_eq_true_eq] at h2
  rcases h2 with ((((h | h) | h) | h) | h) <;> subst h <;>
    exact absurd hw (by decide)

theorem word_not_space (c : Char) (hw : pyIsWord c = true) : pyIsSpace c = false := by
  by_contra h
  have hs : pyIsSpace c = true := by simpa using h
  simp only [pyIsSpace, Bool.or_eq_true, decide_eq_true_eq] at hs
  rcases hs with ((((h | h) | h) | h) | h) | h <;> subst h <;>
    exact absurd hw (by decide)

theorem keep_of_word_or_blank (c : Char) (h : pyIsWord c = true ∨ c = ' ') :
    keepChar c = true := by
  rcases h with h | h
  · simp [keepChar, h]
  · subst h; decide

/-- No two adjacent whitespace characters (used to state when the collapse
step is the identity). -/
def noDoubleSpace : List Char → Bool
  | [] => true
  | [_] => true
  | a :: b :: t => !(pyIsSpace a && pyIsSpace b) && noDoubleSpace (b :: t)

/-- The first character (if any) is unchanged by uppercasing and is not a
digit (used to state when normalize is idempotent). -/
def headOK : List Char → Bool
  | [] => true
  | c :: _ => pyToUpper c = c && !pyIsDigit c

theorem collapseWs_spaces_blank (l : List Char) :
    ∀ c ∈ collapseWs l, pyIsSpace c = true → c = ' ' := by
  induction l using collapseWs.induct with
  | case1 => simp [collapseWs]
  | case2 c hc =>
      simp [collapseWs, hc]
  | case3 c hc =>
      simp only [collapseWs, if_neg hc, List.mem_singleton]
      intro d hd hs
      subst hd
      exact absurd hs hc
  | case4 c d cs hc hd ih =>
      simpa [collapseWs, hc, hd] using ih
  | case5 c d cs hc hd ih =>
      simp only [collapseWs, if_pos hc, if_neg hd, List.mem_cons]
      intro e he hs
      rcases he with h | h
      · exact h
      · exact ih e h hs
  | case6 c d cs hc ih =>
      simp only [collapseWs, if_neg hc, List.mem_cons]
      intro e he hs
      rcases he with h | h
      · subst h; exact absurd hs hc
      · exact ih e h hs

theorem collapseWs_fixed (l : List Char)
    (hs : ∀ c ∈ l, pyIsSpace c = true → c = ' ')
    (hnd : noDoubleSpace l = true) : collapseWs l = l := by
  induction l using collapseWs.induct with
  | case1 => rfl
  | case2 c hc =>
      simp only [collapseWs, if_pos hc]
      rw [hs c (by simp) hc]
  | case3 c hc =>
      simp [collapseWs, hc]
  | case4 c d cs hc hd ih =>
      exfalso
      simp [noDoubleSpace, hc, hd] at hnd
  | case5 c d cs hc hd ih =>
      simp only [collapseWs, if_pos hc, if_neg hd]
      have h1 : noDoubleSpace (d :: cs) = true := by
        simp only [noDoubleSpace, Bool.and_eq_true] at hnd
        exact hnd.2
      have h2 : ∀ e ∈ d :: cs, pyIsSpace e = true → e = ' ' :=
        fun e he => hs e (List.mem_cons_of_mem c he)
      rw [hs c (by simp) hc, ih h2 h1]
  | case6 c d cs hc ih =>
      simp only [collapseWs, if_neg hc]
      have h1 : noDoubleSpace (d :: cs) = true := by
        simp only [noDoubleSpace, Bool.and_eq_true] at hnd
        exact hnd.2
      have h2 : ∀ e ∈ d :: cs, pyIsSpace e = true → e = ' ' :=
        fun e he => hs e (List.mem_cons_of_mem c he)
      rw [ih h2 h1]

theorem map_self {f : Char → Char} (l : List Char) (h : ∀ c ∈ l, f c = c) :
    l.map f = l := by
  induction l with
  | nil => rfl
  | cons c t ih =>
      rw [List.map_cons, h c (by simp), ih (fun e he => h e (by simp [he]))]

theorem mem_pyStrip (l : List Char) (c : Char) (h : c ∈ pyStrip l) : c ∈ l := by
  unfold pyStrip List.rdropWhile at h
  have h1 := List.mem_reverse.mp h
  have h2 := (List.dropWhile_suffix pyIsSpace).subset h1
  have h3 := List.mem_reverse.mp h2
  exact (List.dropWhile_suffix pyIsSpace).subset h3

theorem pyStrip_head_not (l : List Char) (h : pyStrip l ≠ []) :
    pyIsSpace ((pyStrip l).head h) = false := by
  have hpre := List.rdropWhile_prefix (p := pyIsSpace) (l := l.dropWhile pyIsSpace)
  obtain ⟨t, ht⟩ := hpre
  have hD : l.dropWhile pyIsSpace ≠ [] := by
    intro h0
    apply h
    show (l.dropWhile pyIsSpace).rdropWhile pyIsSpace = []
    rw [h0]
    rfl
  have hhd : ((pyStrip l ++ t).head (by simp [h])) = (pyStrip l).head h :=
    List.head_append_of_ne_nil h
  have hDh := List.head_dropWhile_not pyIsSpace l hD
  rw [← hhd]
  have h5 : ((pyStrip l ++ t).head (by simp [h])) = ((l.dropWhile pyIsSpace).head hD) := by
    congr 1
  rw [h5]
  exact hDh

theorem pyStrip_last_not (l : List Char) (h : pyStrip l ≠ []) :
    pyIsSpace ((pyStrip l).getLast h) = false := by
  have := List.rdropWhile_last_not (p := pyIsSpace) (l := l.dropWhile pyIsSpace) h
  simpa using this

theorem pyStrip_fixed (l : List Char)
    (hh : ∀ h : l ≠ [], pyIsSpace (l.head h) = false)
    (hl : ∀ h : l ≠ [], pyIsSpace (l.getLast h) = false) : pyStrip l = l := by
  cases l with
  | nil => rfl
  | cons c t =>
      have hc : pyIsSpace c = false := hh (by simp)
      show ((c :: t).dropWhile pyIsSpace).rdropWhile pyIsSpace = c :: t
      rw [List.dropWhile_cons_of_neg (by simp [hc])]
      rw [List.rdropWhile_eq_self_iff]
      intro h0
      simp [hl h0]

theorem pyStrip_cons_structure (c : Char) (R : List Char) (hc : pyIsSpace c = false) :
    pyStrip (c :: R) = [] ∨
      ∃ R2, pyStrip (c :: R) = c :: R2 ∧ ∀ e ∈ R2, e ∈ R := by
  have hdw : (c :: R).dropWhile pyIsSpace = c :: R :=
    List.dropWhile_cons_of_neg (by simp [hc])
  have hout : pyStrip (c :: R) = (c :: R).rdropWhile pyIsSpace := by
    show ((c :: R).dropWhile pyIsSpace).rdropWhile pyIsSpace = _
    rw [hdw]
  have hpre := List.rdropWhile_prefix (p := pyIsSpace) (l := c :: R)
  obtain ⟨t, ht⟩ := hpre
  rw [← hout] at ht
  cases hps : pyStrip (c :: R) with
  | nil => exact Or.inl rfl
  | cons o ot =>
      right
      rw [hps] at ht
      simp only [List.cons_append, List.cons.injEq] at ht
      refine ⟨ot, by rw [ht.1], ?_⟩
      intro e he
      rw [← ht.2]
      exact List.mem_append_left t he

/-- Every character of a normalized string is a word character or a blank. -/
theorem clean_chars (x : List Char) :
    ∀ c ∈ clean_concept x, pyIsWord c = true ∨ c = ' ' := by
  intro c hc
  by_cases hx : x = []
  · subst hx
    simp [clean_concept] at hc
  · rw [clean_concept, if_neg hx] at hc
    have h1 := mem_pyStrip _ c hc
    have h2 := List.mem_filter.mp h1
    have hkeep : keepChar c = true := h2.2
    rcases keepChar_word_or_space c hkeep with hw | hs
    · exact Or.inl hw
    · right
      have hMblank : ∀ e ∈ pyStrip (collapseWs (stripLeadMarkers x)),
          pyIsSpace e = true → e = ' ' := fun e he =>
        collapseWs_spaces_blank (stripLeadMarkers x) e (mem_pyStrip _ e he)
      rcases hM : pyStrip (collapseWs (stripLeadMarkers x)) with _ | ⟨m, t⟩
      · rw [hM] at h2
        simp [pyCapitalize] at h2
      · rw [hM] at h2
        have hmem := h2.1
        simp only [pyCapitalize, List.mem_cons] at hmem
        rcases hmem with h3 | h3
        · have hUc : pyToUpper m = m := pyToUpper_space m (by rw [← h3]; exact hs)
          rw [hUc] at h3
          subst h3
          exact hMblank c (by rw [hM]; simp) hs
        · obtain ⟨d, hd, hdc⟩ := List.mem_map.mp h3
          have hLc : pyToLower d = d := pyToLower_space d (by rw [hdc]; exact hs)
          have hcd : c = d := by rw [← hdc, hLc]
          subst hcd
          exact hMblank c (by rw [hM]; exact List.mem_cons_of_mem m hd) hs

/-- A normalized string has no leading or trailing whitespace. -/
theorem clean_stripped (x : List Char) :
    ∀ h : clean_concept x ≠ [],
      pyIsSpace ((clean_concept x).head h) = false ∧
      pyIsSpace ((clean_concept x).getLast h) = false := by
  intro h
  by_cases hx : x = []
  · subst hx
    simp [clean_concept] at h
  · have he : clean_concept x
        = pyStrip ((pyCapitalize (pyStrip (collapseWs
            (stripLeadMarkers x)))).filter keepChar) := by
      rw [clean_concept, if_neg hx]
    constructor
    · have h2 := pyStrip_head_not
        ((pyCapitalize (pyStrip (collapseWs (stripLeadMarkers x)))).filter keepChar)
        (by rw [← he]; exact h)
      simpa [← he] using h2
    · have h2 := pyStrip_last_not
        ((pyCapitalize (pyStrip (collapseWs (stripLeadMarkers x)))).filter keepChar)
        (by rw [← he]; exact h)
      simpa [← he] using h2

/-- Every character after the first of a normalized string is fixed by
lowercasing. -/
theorem clean_tail_lower (x : List Char) :
    ∀ c ∈ (clean_concept x).tail, pyToLower c = c := by
  intro c hc
  by_cases hx : x = []
  · subst hx
    simp [clean_concept] at hc
  · have he : clean_concept x
        = pyStrip ((pyCapitalize (pyStrip (collapseWs
            (stripLeadMarkers x)))).filter keepChar) := by
      rw [clean_concept, if_neg hx]
    rcases hM : pyStrip (collapseWs (stripLeadMarkers x)) with _ | ⟨m, t⟩
    · rw [he, hM] at hc
      simp [pyCapitalize, pyStrip, List.rdropWhile] at hc
    · have hlow : ∀ e ∈ List.filter keepChar (List.map pyToLower t), pyToLower e = e := by
        intro e hef
        have hem := List.mem_of_mem_filter hef
        obtain ⟨d, _, hde⟩ := List.mem_map.mp hem
        rw [← hde]
        exact pyToLower_idem d
      rw [he, hM] at hc
      simp only [pyCapitalize] at hc
      by_cases hU : keepChar (pyToUpper m) = true
      · rw [List.filter_cons_of_pos hU] at hc
        have hmns : pyIsSpace m = false := by
          have h0 := pyStrip_head_not (collapseWs (stripLeadMarkers x)) (by rw [hM]; simp)
          simp only [hM, List.head_cons] at h0
          exact h0
        have hUns : pyIsSpace (pyToUpper m) = false := by
          by_contra h0
          have h1 : pyIsSpace (pyToUpper m) = true := by simpa using h0
          have h2 := pyToUpper_space m h1
          rw [h2] at h1
          rw [h1] at hmns
          cases hmns
        rcases pyStrip_cons_structure (pyToUpper m)
            (List.filter keepChar (List.map pyToLower t)) hUns with h0 | ⟨R2, hR2, hR2sub⟩
        · rw [h0] at hc
          simp at hc
        · rw [hR2] at hc
          simp only [List.tail_cons] at hc
          exact hlow c (hR2sub c hc)
      · rw [List.filter_cons_of_neg (by simpa using hU)] at hc
        have hmem := mem_pyStrip _ c (List.mem_of_mem_tail hc)
        exact hlow c hmem

/-- A string made of word characters and single blanks, with no leading or
trailing blank, a lower-case-fixed tail and a head that is neither a digit
nor changed by uppercasing, is a fixed point of the normalizer. -/
theorem clean_fixed (y : List Char)
    (hA : ∀ c ∈ y, pyIsWord c = true ∨ c = ' ')
    (hB : ∀ h : y ≠ [], pyIsSpace (y.head h) = false ∧ pyIsSpace (y.getLast h) = false)
    (hC : ∀ c ∈ y.tail, pyToLower c = c)
    (h1 : headOK y = true) (h2 : noDoubleSpace y = true) :
    clean_concept y = y := by
  cases y with
  | nil => rfl
  | cons c t =>
      have hney : (c :: t : List Char) ≠ [] := by simp
      have hcs : pyIsSpace c = false := (hB hney).1
      have hcw : pyIsWord c = true := by
        rcases hA c (by simp) with h | h
        · exact h
        · subst h
          cases hcs
      simp only [headOK, Bool.and_eq_true, Bool.not_eq_true', decide_eq_true_eq] at h1
      have hstep1 : stripLeadMarkers (c :: t) = c :: t := by
        simp only [stripLeadMarkers, isMarker_false_of_word c hcw h1.2]
        simp
      have hsb : ∀ e ∈ c :: t, pyIsSpace e = true → e = ' ' := by
        intro e he hs
        rcases hA e he with h | h
        · rw [word_not_space e h] at hs
          cases hs
        · exact h
      have hstep2 : collapseWs (c :: t) = c :: t := collapseWs_fixed _ hsb h2
      have hstep3 : pyStrip (c :: t) = c :: t :=
        pyStrip_fixed _ (fun h => (hB h).1) (fun h => (hB h).2)
      have hcap : pyCapitalize (c :: t) = c :: t := by
        simp only [pyCapitalize, List.cons.injEq]
        exact ⟨h1.1, map_self t hC⟩
      have hfil : (c :: t).filter keepChar = c :: t := by
        rw [List.filter_eq_self]
        intro a ha
        exact keep_of_word_or_blank a (hA a ha)
      rw [clean_concept, if_neg hney, hstep1, hstep2, hstep3, hcap, hfil, hstep3]

/-- **C5 (amended).**  `normalize` is idempotent on every input whose
normalized form is empty or (i) starts with a character that is neither a
digit nor changed by uppercasing and (ii) has no two adjacent blanks.
(Unconditionally the claim is false: see the counterexample.) -/
theorem C5_conditional_idempotent (x : List Char)
    (h1 : headOK (clean_concept x) = true)
    (h2 : noDoubleSpace (clean_concept x) = true) :
    clean_concept (clean_concept x) = clean_concept x :=
  clean_fixed (clean_concept x) (clean_chars x) (clean_stripped x)
    (clean_tail_lower x) h1 h2

/-- Witness for C5 (amended) at a concrete input. -/
theorem C5_conditional_idempotent_witness :
    clean_concept (clean_concept "hola  mundo!".toList)
      = clean_concept "hola  mundo!".toList :=
  C5_conditional_idempotent "hola  mundo!".toList (by decide) (by decide)

end ConceptGraph
